import Mathlib

/-!
# Secure-Chat Application: verification of the spec against the code

Shallow embedding of the core of the secure-chat repository:

* the steganographic codec (`utils/stego.ts`): `numberToBits`, `bitsToNumber`,
  `textToBits`, `embedTextInImage`, `extractTextFromImage`;
* the base64 helpers (`utils/crypto.ts`): `bufferToBase64`, `base64ToBytes`,
  on top of a faithful model of the platform `btoa`/`atob` pair
  (WHATWG forgiving-base64);
* the relay server (`server.js`): presence map, store-and-forward queue,
  `sendOrStore`, the connection / event / disconnect handlers;
* the client pipeline (`App.tsx`): per-peer key-exchange state, pending
  buffers, `handleSendMessage`, `decryptIncoming`, `deriveSharedSecret`.

Modelling conventions:

* JavaScript strings that only carry binary data (binary strings fed to
  `btoa`, text fed to `TextEncoder`) are modelled as their lists of char
  codes / UTF-8 bytes (`List Nat`, each element < 256).  `TextEncoder` /
  `TextDecoder`, `String.fromCharCode` / `charCodeAt` are then identities
  on this representation.
* JavaScript 32-bit signed integer operations (`<<`, `|` in `bitsToNumber`)
  are modelled exactly via `jsToInt32` wrapping on `Int`.
* A canvas `ImageData` buffer is modelled as the list of its RGBA channel
  bytes in order; `toDataURL('image/png')` followed by `Image.decode` and
  `drawImage` is lossless for a fully opaque RGBA image and is modelled as
  the identity on that buffer.
* Fallible operations (a `throw` in the source) return `Option`/`Except`.
-/

namespace SecureChat

/-! ## Steganographic codec (`utils/stego.ts`) -/

/-- Source constant `CANVAS_SIZE = 256`. -/
def CANVAS_SIZE : Nat := 256

/-- Source constant `LENGTH_PREFIX_BITS = 32`. -/
def LENGTH_PREFIX_BITS : Nat := 32

/-- JavaScript ToInt32 wrap: the value of a JS 32-bit operation result. -/
def jsToInt32 (n : Int) : Int := (n + 2 ^ 31) % 2 ^ 32 - 2 ^ 31

/-- Source `numberToBits(value, length)`: big-endian bit vector;
`bits[length - 1 - i] = (value >> i) & 1`, i.e. position `j` holds
`(value >>> (length - 1 - j)) &&& 1`.  The JS `>>` is a signed 32-bit
shift; every call site passes a nonnegative value below `2 ^ 31`
(a byte, or a JS string length), where it agrees with the `Nat` shift. -/
def numberToBits (value length : Nat) : List Nat :=
  (List.range length).map (fun j => (value >>> (length - 1 - j)) &&& 1)

/-- Source `bitsToNumber(bits)`: `value = (value << 1) | (bits[i] & 1)`,
with JS 32-bit semantics: the shift wraps to Int32, and since the wrapped
`value * 2` is even, the `|` with a 0/1 bit is an addition. -/
def bitsToNumber (bits : List Nat) : Int :=
  bits.foldl (fun value b => jsToInt32 (value * 2) + ((b % 2 : Nat) : Int)) 0

/-- Source `textToBits(text)`: 32-bit big-endian length prefix followed by
the 8-bit big-endian encoding of each UTF-8 byte.  The text is modelled as
its UTF-8 byte list. -/
def textToBits (bytes : List Nat) : List Nat :=
  numberToBits bytes.length LENGTH_PREFIX_BITS ++
    bytes.flatMap (fun b => numberToBits b 8)

/-- Background fill `#0b1120` of the carrier canvas, as RGBA channel bytes:
channel `k % 4` of the `ImageData` buffer (alpha is 255). -/
def fillColorAt (k : Nat) : Nat :=
  if k % 4 = 0 then 0x0b else if k % 4 = 1 then 0x11
  else if k % 4 = 2 then 0x20 else 0xff

/-- Source `embedTextInImage(text)`: builds a 256 by 256 carrier filled with
`#0b1120`, fails with a capacity error when `bits.length > 256 * 256`, else
writes bit `i` into the least significant bit of the blue channel of pixel
`i` (`data[i * 4 + 2]`).  Returns the RGBA buffer of the produced image
(the PNG data-URL encoding is lossless and is modelled as the identity). -/
def embedTextInImage (bytes : List Nat) : Option (List Nat) :=
  let bits := textToBits bytes
  let maxBits := CANVAS_SIZE * CANVAS_SIZE
  if bits.length > maxBits then none
  else some ((List.range (CANVAS_SIZE * CANVAS_SIZE * 4)).map (fun k =>
    if k % 4 = 2 ∧ k / 4 < bits.length
    then (fillColorAt k &&& 0xfe) ||| bits.getD (k / 4) 0
    else fillColorAt k))

/-- The LSB stream read by `extractTextFromImage`: the blue-channel least
significant bit of every pixel of the received image, in raster order
(`data[i * 4 + 2] & 1` for `i < width * height`). -/
def extractBits (data : List Nat) : List Nat :=
  (List.range (data.length / 4)).map (fun i => data.getD (i * 4 + 2) 0 &&& 1)

/-- Source `extractTextFromImage(imageDataUrl)`: reads the blue LSB stream,
decodes the first 32 bits as the payload byte count, slices the payload
bits (the slice silently clamps when fewer bits are available) and packs
each 8-bit chunk into a byte (`Uint8Array` assignment wraps mod 256; a
missing chunk leaves the zero-initialised byte, matching
`bitsToNumber([]) = 0`).  The only data-dependent throw is the
`new Uint8Array(payloadLength)` allocation when the Int32-decoded length is
negative; there is no availability or UTF-8 validation (`TextDecoder` is
non-fatal), so the result is the decoded byte list. -/
def extractTextFromImage (data : List Nat) : Option (List Nat) :=
  let bits := extractBits data
  let payloadLength := bitsToNumber (bits.take LENGTH_PREFIX_BITS)
  if payloadLength < 0 then none
  else
    let n := payloadLength.toNat
    let payloadBits := (bits.drop LENGTH_PREFIX_BITS).take (n * 8)
    some ((List.range n).map (fun i =>
      (bitsToNumber ((payloadBits.drop (i * 8)).take 8)).toNat % 256))

/-! ### Arithmetic facts about the bit codec -/

/-- Pure (non-wrapping) big-endian bit accumulator, the mathematical value
computed by `bitsToNumber` when no Int32 overflow occurs. -/
def foldBits (a : Nat) (bits : List Nat) : Nat :=
  bits.foldl (fun x b => 2 * x + b % 2) a

theorem foldBits_nil (a : Nat) : foldBits a [] = a := rfl

theorem foldBits_cons (a b : Nat) (bs : List Nat) :
    foldBits a (b :: bs) = foldBits (2 * a + b % 2) bs := rfl

theorem le_foldBits (bits : List Nat) : ∀ a : Nat, a ≤ foldBits a bits := by
  induction bits with
  | nil => intro a; exact Nat.le_refl a
  | cons b bs ih =>
    intro a
    calc a ≤ 2 * a + b % 2 := by omega
    _ ≤ foldBits (2 * a + b % 2) bs := ih _

theorem jsToInt32_eq_self (x : Int) (h1 : -2 ^ 31 ≤ x) (h2 : x < 2 ^ 31) :
    jsToInt32 x = x := by
  unfold jsToInt32
  have h3 : (0 : Int) ≤ x + 2 ^ 31 := by omega
  have h4 : x + 2 ^ 31 < 2 ^ 32 := by omega
  rw [Int.emod_eq_of_lt h3 h4]
  omega

/-- When the pure accumulated value stays below `2 ^ 31`, the JS fold in
`bitsToNumber` computes exactly the pure fold. -/
theorem bitsToNumber_foldl_eq (bits : List Nat) :
    ∀ a : Nat, foldBits a bits < 2 ^ 31 →
      bits.foldl (fun value b => jsToInt32 (value * 2) + ((b % 2 : Nat) : Int))
        (a : Int) = (foldBits a bits : Nat) := by
  induction bits with
  | nil => intro a _; rfl
  | cons b bs ih =>
    intro a h
    have hstep : 2 * a + b % 2 ≤ foldBits (2 * a + b % 2) bs := le_foldBits bs _
    rw [foldBits_cons] at h
    have ha2 : (a : Int) * 2 < 2 ^ 31 := by
      have : 2 * a + b % 2 < 2 ^ 31 := lt_of_le_of_lt hstep h
      push_cast; omega
    have hwrap : jsToInt32 ((a : Int) * 2) = (a : Int) * 2 :=
      jsToInt32_eq_self _ (by push_cast; omega) ha2
    simp only [List.foldl_cons, hwrap]
    have hcast : (a : Int) * 2 + ((b % 2 : Nat) : Int) = ((2 * a + b % 2 : Nat) : Int) := by
      push_cast; ring
    rw [hcast, ih _ h, foldBits_cons]

theorem bitsToNumber_eq_foldBits (bits : List Nat) (h : foldBits 0 bits < 2 ^ 31) :
    bitsToNumber bits = (foldBits 0 bits : Nat) := by
  unfold bitsToNumber
  have := bitsToNumber_foldl_eq bits 0 h
  simpa using this

theorem numberToBits_length (v len : Nat) : (numberToBits v len).length = len := by
  simp [numberToBits]

theorem numberToBits_le_one (v len : Nat) :
    ∀ x ∈ numberToBits v len, x ≤ 1 := by
  intro x hx
  simp only [numberToBits, List.mem_map, List.mem_range] at hx
  obtain ⟨j, _, hj⟩ := hx
  rw [← hj, Nat.and_one_is_mod]
  omega

theorem numberToBits_succ (v len : Nat) :
    numberToBits v (len + 1) = ((v >>> len) &&& 1) :: numberToBits v len := by
  unfold numberToBits
  rw [List.range_succ_eq_map, List.map_cons, List.map_map]
  refine congrArg₂ _ ?_ (List.map_congr_left ?_)
  · norm_num
  · intro j hj
    simp only [Function.comp_apply]
    congr 2
    omega

/-- MSB-side decomposition of a residue: the top bit of `v mod 2 ^ (len+1)`
followed by `v mod 2 ^ len`. -/
theorem mod_pow_succ_decomp (v len : Nat) :
    v % 2 ^ (len + 1) = v / 2 ^ len % 2 * 2 ^ len + v % 2 ^ len := by
  have h1 : v / 2 ^ len % 2 = v % 2 ^ (len + 1) / 2 ^ len := by
    rw [← Nat.mod_mul_right_div_self, ← Nat.pow_succ]
  have h2 : v % 2 ^ len = v % 2 ^ (len + 1) % 2 ^ len :=
    (Nat.mod_mod_of_dvd v ⟨2, by rw [Nat.pow_succ]⟩).symm
  rw [h1, h2]
  conv_rhs => rw [Nat.mul_comm]
  exact (Nat.div_add_mod (v % 2 ^ (len + 1)) (2 ^ len)).symm

theorem foldBits_numberToBits (v : Nat) :
    ∀ (len a : Nat), foldBits a (numberToBits v len) = a * 2 ^ len + v % 2 ^ len := by
  intro len
  induction len with
  | zero =>
    intro a
    simp [numberToBits, foldBits, Nat.mod_one]
  | succ k ih =>
    intro a
    rw [numberToBits_succ, foldBits_cons, ih]
    have hbit : (v >>> k) &&& 1 = v / 2 ^ k % 2 := by
      rw [Nat.and_one_is_mod, Nat.shiftRight_eq_div_pow]
    have hmod : ((v >>> k) &&& 1) % 2 = v / 2 ^ k % 2 := by
      rw [hbit]; omega
    rw [hmod, mod_pow_succ_decomp v k, Nat.pow_succ]
    ring

/-- On the output of `numberToBits` the JS fold recovers the encoded value
modulo `2 ^ len`, provided that residue fits in an Int32. -/
theorem bitsToNumber_numberToBits (v len : Nat) (h : v % 2 ^ len < 2 ^ 31) :
    bitsToNumber (numberToBits v len) = ((v % 2 ^ len : Nat) : Int) := by
  have hf : foldBits 0 (numberToBits v len) = v % 2 ^ len := by
    rw [foldBits_numberToBits]; omega
  rw [bitsToNumber_eq_foldBits _ (by omega), hf]

theorem dataBits_length (bytes : List Nat) :
    (bytes.flatMap (fun b => numberToBits b 8)).length = 8 * bytes.length := by
  induction bytes with
  | nil => simp
  | cons b bs ih =>
    rw [List.flatMap_cons, List.length_append, numberToBits_length, ih,
      List.length_cons]
    ring

theorem textToBits_length (bytes : List Nat) :
    (textToBits bytes).length = 32 + 8 * bytes.length := by
  unfold textToBits
  rw [List.length_append, numberToBits_length, dataBits_length]
  rfl

/-- Chunk `i` of the flattened per-byte bit stream is the 8-bit encoding of
byte `i`. -/
theorem dataBits_chunk (bytes : List Nat) :
    ∀ (i : Nat) (h : i < bytes.length),
      (((bytes.flatMap (fun b => numberToBits b 8)).drop (i * 8)).take 8) =
        numberToBits bytes[i] 8 := by
  induction bytes with
  | nil => intro i h; simp at h
  | cons b bs ih =>
    intro i h
    cases i with
    | zero =>
      simp only [List.flatMap_cons, Nat.zero_mul, List.drop_zero,
        List.getElem_cons_zero]
      exact List.take_left' (numberToBits_length b 8)
    | succ j =>
      have hdrop : ((b :: bs).flatMap (fun x => numberToBits x 8)).drop ((j + 1) * 8) =
          (bs.flatMap (fun x => numberToBits x 8)).drop (j * 8) := by
        rw [List.flatMap_cons]
        have h8 : (j + 1) * 8 = (numberToBits b 8).length + j * 8 := by
          rw [numberToBits_length]; ring
        rw [h8, List.drop_append]
      rw [hdrop, List.getElem_cons_succ]
      exact ih j (by simpa using h)

/-- Evaluating a `List.range` map that agrees with `l` below `l.length` and
with the constant `d` above it produces `l` padded with `d`. -/
theorem map_range_eq_append_replicate (f : Nat → α) (l : List α) (d : α) (m : Nat)
    (hm : l.length ≤ m)
    (h1 : ∀ (i : Nat) (h : i < l.length), f i = l.get ⟨i, h⟩)
    (h2 : ∀ i : Nat, l.length ≤ i → i < m → f i = d) :
    (List.range m).map f = l ++ List.replicate (m - l.length) d := by
  apply List.ext_getElem
  · simp; omega
  · intro n hn hn2
    simp only [List.getElem_map, List.getElem_range]
    by_cases hcase : n < l.length
    · rw [List.getElem_append_left hcase]
      exact h1 n hcase
    · rw [List.getElem_append_right (by omega)]
      rw [List.getElem_replicate]
      apply h2 n (by omega)
      simpa using hn

theorem or32_and_one (b : Nat) (hb : b ≤ 1) : (32 ||| b) &&& 1 = b := by
  interval_cases b <;> decide

theorem textToBits_le_one (bytes : List Nat) :
    ∀ x ∈ textToBits bytes, x ≤ 1 := by
  intro x hx
  rcases List.mem_append.mp hx with h | h
  · exact numberToBits_le_one _ _ x h
  · obtain ⟨b, _, hb⟩ := List.mem_flatMap.mp h
    exact numberToBits_le_one _ _ x hb

/-- A 256 by 256 background-filled carrier whose blue-channel least
significant bits spell out `bits` in raster order: the RGBA buffer shape
produced by the write loop of `embedTextInImage`. -/
def lsbImage (bits : List Nat) : List Nat :=
  (List.range (CANVAS_SIZE * CANVAS_SIZE * 4)).map (fun k =>
    if k % 4 = 2 ∧ k / 4 < bits.length
    then (fillColorAt k &&& 0xfe) ||| bits.getD (k / 4) 0
    else fillColorAt k)

theorem embedTextInImage_eq (bytes : List Nat)
    (h : (textToBits bytes).length ≤ CANVAS_SIZE * CANVAS_SIZE) :
    embedTextInImage bytes = some (lsbImage (textToBits bytes)) := by
  unfold embedTextInImage lsbImage
  rw [if_neg (by omega)]

/-- Reading back the blue-channel LSB stream of an LSB carrier yields the
written bit string padded with the background LSB (zero). -/
theorem extractBits_lsbImage (bits : List Nat)
    (h : bits.length ≤ 65536) (hb : ∀ x ∈ bits, x ≤ 1) :
    extractBits (lsbImage bits) =
      bits ++ List.replicate (65536 - bits.length) 0 := by
  have hCS : CANVAS_SIZE * CANVAS_SIZE * 4 = 262144 := by decide
  have hlen : (lsbImage bits).length = 262144 := by
    rw [lsbImage, List.length_map, List.length_range, hCS]
  unfold extractBits
  rw [hlen]
  have hdiv : (262144 : Nat) / 4 = 65536 := by norm_num
  rw [hdiv]
  apply map_range_eq_append_replicate _ _ _ _ h
  · intro i hi
    have hk2 : i * 4 + 2 < (lsbImage bits).length := by omega
    rw [List.getD_eq_getElem _ _ hk2]
    have hval : (lsbImage bits)[i * 4 + 2] =
        (fillColorAt (i * 4 + 2) &&& 0xfe) ||| bits.getD ((i * 4 + 2) / 4) 0 := by
      simp only [lsbImage, List.getElem_map, List.getElem_range]
      rw [if_pos]
      refine ⟨by omega, ?_⟩
      have : (i * 4 + 2) / 4 = i := by omega
      omega
    have hmod : (i * 4 + 2) % 4 = 2 := by omega
    have hdiv4 : (i * 4 + 2) / 4 = i := by omega
    rw [hval, hdiv4]
    have hfill : fillColorAt (i * 4 + 2) = 0x20 := by
      simp [fillColorAt, hmod]
    rw [hfill]
    have hfe : (0x20 : Nat) &&& 0xfe = 32 := by decide
    rw [hfe]
    rw [List.getD_eq_getElem _ _ hi]
    exact or32_and_one _ (hb _ (List.getElem_mem hi))
  · intro i hge _
    have hk2 : i * 4 + 2 < (lsbImage bits).length := by omega
    rw [List.getD_eq_getElem _ _ hk2]
    have hval : (lsbImage bits)[i * 4 + 2] = fillColorAt (i * 4 + 2) := by
      simp only [lsbImage, List.getElem_map, List.getElem_range]
      rw [if_neg]
      intro ⟨_, hlt⟩
      have : (i * 4 + 2) / 4 = i := by omega
      omega
    have hmod : (i * 4 + 2) % 4 = 2 := by omega
    rw [hval]
    have hfill : fillColorAt (i * 4 + 2) = 0x20 := by
      simp [fillColorAt, hmod]
    rw [hfill]
    decide

/-- Claim C1: for every text payload whose UTF-8 encoding `bytes` fits the
carrier (`32 + 8 * n ≤ 65536`), extraction of the embedded carrier returns
the payload exactly: `extractTextFromImage (embedTextInImage P) = P`.
The text is modelled as its UTF-8 byte list (every byte below 256);
`TextDecoder` inverts `TextEncoder` on such round-tripped bytes. -/
theorem extract_embed_roundtrip (bytes : List Nat)
    (hvalid : ∀ b ∈ bytes, b < 256)
    (hcap : 32 + 8 * bytes.length ≤ 65536) :
    ∃ img, embedTextInImage bytes = some img ∧
      extractTextFromImage img = some bytes := by
  have hL : (textToBits bytes).length = 32 + 8 * bytes.length :=
    textToBits_length bytes
  have hle : (textToBits bytes).length ≤ 65536 := by omega
  refine ⟨lsbImage (textToBits bytes),
    embedTextInImage_eq bytes (by simp only [CANVAS_SIZE]; omega), ?_⟩
  simp only [extractTextFromImage]
  rw [extractBits_lsbImage _ hle (textToBits_le_one bytes)]
  have hsplit : textToBits bytes ++ List.replicate (65536 - (textToBits bytes).length) 0 =
      numberToBits bytes.length LENGTH_PREFIX_BITS ++
        (bytes.flatMap (fun b => numberToBits b 8) ++
          List.replicate (65536 - (textToBits bytes).length) 0) := by
    rw [textToBits, List.append_assoc]
  rw [hsplit]
  have hpre : (numberToBits bytes.length LENGTH_PREFIX_BITS).length = LENGTH_PREFIX_BITS :=
    numberToBits_length _ _
  rw [List.take_left' hpre, List.drop_left' hpre]
  have hnlt : bytes.length < 2 ^ 31 := by
    have : bytes.length ≤ 8188 := by omega
    omega
  have hmod : bytes.length % 2 ^ LENGTH_PREFIX_BITS = bytes.length := by
    apply Nat.mod_eq_of_lt
    have : (2 : Nat) ^ 31 < 2 ^ LENGTH_PREFIX_BITS := by
      simp only [LENGTH_PREFIX_BITS]; norm_num
    omega
  have hnum : bitsToNumber (numberToBits bytes.length LENGTH_PREFIX_BITS) =
      (bytes.length : Int) := by
    rw [bitsToNumber_numberToBits _ _ (by omega), hmod]
  rw [hnum]
  rw [if_neg (by omega)]
  have htonat : ((bytes.length : Int)).toNat = bytes.length := Int.toNat_natCast _
  rw [htonat]
  have hdata : (bytes.flatMap (fun b => numberToBits b 8)).length = bytes.length * 8 := by
    rw [dataBits_length]; ring
  rw [List.take_left' hdata]
  refine congrArg some ?_
  apply List.ext_getElem (by simp)
  intro i h1 h2
  simp only [List.getElem_map, List.getElem_range, List.length_map, List.length_range] at h1 ⊢
  rw [dataBits_chunk bytes i h2]
  have hb : bytes[i] < 256 := hvalid _ (List.getElem_mem h2)
  have hmod8 : bytes[i] % 2 ^ 8 = bytes[i] := by
    apply Nat.mod_eq_of_lt
    norm_num
    omega
  rw [bitsToNumber_numberToBits _ 8 (by rw [hmod8]; norm_num; omega), hmod8,
    Int.toNat_natCast]
  exact Nat.mod_eq_of_lt hb

/-- Witness for C1 at the concrete payload `"hi"` (UTF-8 bytes 104, 105). -/
theorem extract_embed_roundtrip_witness :
    (∀ b ∈ ([104, 105] : List Nat), b < 256) ∧
      32 + 8 * ([104, 105] : List Nat).length ≤ 65536 ∧
      ∃ img, embedTextInImage [104, 105] = some img ∧
        extractTextFromImage img = some [104, 105] :=
  ⟨by decide, by decide, extract_embed_roundtrip [104, 105] (by decide) (by decide)⟩

/-- Claim C2: `embedTextInImage` fails with a capacity error iff
`32 + 8 * n > 65536` for payload byte length `n`; in particular it succeeds
on every 8188-byte payload and fails on every 8189-byte payload.  A failing
call returns no carrier at all (the length check precedes the write loop),
so no partial write occurs. -/
theorem embed_capacity_boundary :
    (∀ bytes : List Nat,
        (embedTextInImage bytes = none ↔ 32 + 8 * bytes.length > 65536)) ∧
    (∀ bytes : List Nat, bytes.length = 8188 → (embedTextInImage bytes).isSome) ∧
    (∀ bytes : List Nat, bytes.length = 8189 → embedTextInImage bytes = none) := by
  have key : ∀ bytes : List Nat,
      (embedTextInImage bytes = none ↔ 32 + 8 * bytes.length > 65536) := by
    intro bytes
    have hL := textToBits_length bytes
    unfold embedTextInImage
    simp only [CANVAS_SIZE]
    by_cases hgt : (textToBits bytes).length > 256 * 256
    · rw [if_pos hgt]
      simp only [true_iff, eq_self_iff_true]
      omega
    · rw [if_neg hgt]
      constructor
      · intro hc
        exact absurd hc (Option.some_ne_none _)
      · intro hc
        exact absurd hc (by omega)
  refine ⟨key, ?_, ?_⟩
  · intro bytes hlen
    have hne : embedTextInImage bytes ≠ none := by
      intro hc
      have := (key bytes).mp hc
      omega
    exact Option.ne_none_iff_isSome.mp hne
  · intro bytes hlen
    exact (key bytes).mpr (by omega)

/-- Witness for C2 at the boundary payload lengths 8188 and 8189. -/
theorem embed_capacity_boundary_witness :
    (List.replicate 8188 (0 : Nat)).length = 8188 ∧
      (embedTextInImage (List.replicate 8188 0)).isSome ∧
      (List.replicate 8189 (0 : Nat)).length = 8189 ∧
      embedTextInImage (List.replicate 8189 0) = none :=
  ⟨List.length_replicate 8188 0,
    embed_capacity_boundary.2.1 _ (List.length_replicate 8188 0),
    List.length_replicate 8189 0,
    embed_capacity_boundary.2.2 _ (List.length_replicate 8189 0)⟩

/-- A concrete malformed frame: a 256 by 256 carrier whose 32-bit length
prefix declares 8189 payload bytes (needing 65544 bits) while only 65536
bits exist; all payload bits beyond the prefix are background zeros. -/
def badFrameData : List Nat :=
  lsbImage (numberToBits 8189 LENGTH_PREFIX_BITS)

theorem extractBits_badFrameData :
    extractBits badFrameData =
      numberToBits 8189 LENGTH_PREFIX_BITS ++
        List.replicate (65536 - (numberToBits 8189 LENGTH_PREFIX_BITS).length) 0 := by
  apply extractBits_lsbImage
  · rw [numberToBits_length]; decide
  · exact numberToBits_le_one 8189 LENGTH_PREFIX_BITS

theorem badFrame_declared_length :
    bitsToNumber ((extractBits badFrameData).take LENGTH_PREFIX_BITS) = (8189 : Int) := by
  rw [extractBits_badFrameData,
    List.take_left' (numberToBits_length 8189 LENGTH_PREFIX_BITS)]
  have h : (8189 : Nat) % 2 ^ LENGTH_PREFIX_BITS = 8189 := by
    apply Nat.mod_eq_of_lt
    simp only [LENGTH_PREFIX_BITS]
    norm_num
  rw [bitsToNumber_numberToBits _ _ (by omega), h]
  norm_num

/-- Counterexample to claim C3: on `badFrameData` the declared byte count
8189 needs more bits (65544) than the carrier holds (65536), yet
`extractTextFromImage` returns a result instead of failing with a
malformed-frame error. -/
theorem extract_malformed_counterexample :
    bitsToNumber ((extractBits badFrameData).take LENGTH_PREFIX_BITS) = (8189 : Int) ∧
      (extractBits badFrameData).length < 32 + 8 * 8189 ∧
      (extractTextFromImage badFrameData).isSome := by
  refine ⟨badFrame_declared_length, ?_, ?_⟩
  · rw [extractBits_badFrameData, List.length_append, numberToBits_length,
      List.length_replicate]
    simp only [LENGTH_PREFIX_BITS]
    norm_num
  · simp only [extractTextFromImage, badFrame_declared_length]
    rw [if_neg (by norm_num)]
    exact Option.isSome_some

/-- Claim C3 amended: `extractTextFromImage` performs no frame validation
at all.  Whenever the 32-bit prefix decodes (as a signed 32-bit integer) to
a nonnegative count `n`, extraction succeeds and returns exactly `n`
bytes, with bytes whose bits lie beyond the carrier computed from
truncated or empty chunks; it fails only when the decoded count is
negative (the `Uint8Array` allocation throws).  Invalid UTF-8 does not
fail either: the non-fatal `TextDecoder` substitutes replacement
characters. -/
theorem extract_no_frame_validation (data : List Nat) :
    ((extractTextFromImage data).isSome ↔
      0 ≤ bitsToNumber ((extractBits data).take LENGTH_PREFIX_BITS)) ∧
    (∀ bs, extractTextFromImage data = some bs →
      bs.length = (bitsToNumber ((extractBits data).take LENGTH_PREFIX_BITS)).toNat) := by
  simp only [extractTextFromImage]
  by_cases hneg : bitsToNumber ((extractBits data).take LENGTH_PREFIX_BITS) < 0
  · rw [if_pos hneg]
    constructor
    · simp only [Option.isSome_none, Bool.false_eq_true, false_iff]
      omega
    · intro bs h
      exact absurd h (by simp)
  · rw [if_neg hneg]
    constructor
    · simp only [Option.isSome_some, true_iff]
      omega
    · intro bs h
      rw [← Option.some.inj h]
      simp

/-- Witness for the amended C3 at the empty carrier, whose prefix decodes
to the nonnegative count 0. -/
theorem extract_no_frame_validation_witness :
    ([] : List Nat).length =
        (bitsToNumber ((extractBits ([] : List Nat)).take LENGTH_PREFIX_BITS)).toNat ∧
      ((extractTextFromImage ([] : List Nat)).isSome ↔
        0 ≤ bitsToNumber ((extractBits ([] : List Nat)).take LENGTH_PREFIX_BITS)) :=
  ⟨(extract_no_frame_validation []).2 [] (by decide),
    (extract_no_frame_validation []).1⟩

/-! ## Base64 helpers (`utils/crypto.ts`)

`bufferToBase64` turns a byte buffer into the binary string of its char
codes and calls the platform `btoa`; `base64ToBytes` calls `atob` and reads
the char codes back.  Binary strings are modelled as their char-code lists,
so the two wrappers are `btoa` and `atob` themselves.  `btoa`/`atob` are
modelled from RFC 4648 and the WHATWG forgiving-base64 decode algorithm. -/

/-- Char code of the base64 alphabet symbol with index `n < 64`. -/
def b64Char (n : Nat) : Nat :=
  if n < 26 then 65 + n
  else if n < 52 then 97 + (n - 26)
  else if n < 62 then 48 + (n - 52)
  else if n = 62 then 43
  else 47

/-- Index of a base64 alphabet char code, `none` outside the alphabet
(also for the padding char 61). -/
def b64Index (c : Nat) : Option Nat :=
  if 65 ≤ c ∧ c ≤ 90 then some (c - 65)
  else if 97 ≤ c ∧ c ≤ 122 then some (c - 97 + 26)
  else if 48 ≤ c ∧ c ≤ 57 then some (c - 48 + 52)
  else if c = 43 then some 62
  else if c = 47 then some 63
  else none

/-- Platform `btoa` on a binary string (char-code list, each < 256):
3-byte groups become 4 alphabet chars, a 1- or 2-byte tail is padded with
one or two `=` (char code 61). -/
def btoa : List Nat → List Nat
  | [] => []
  | [a] => [b64Char (a / 4), b64Char (a % 4 * 16), 61, 61]
  | [a, b] => [b64Char (a / 4), b64Char (a % 4 * 16 + b / 16),
      b64Char (b % 16 * 4), 61]
  | a :: b :: c :: rest =>
      b64Char (a / 4) :: b64Char (a % 4 * 16 + b / 16) ::
        b64Char (b % 16 * 4 + c / 64) :: b64Char (c % 64) :: btoa rest

/-- The unpadded part of `btoa`: the alphabet chars without the trailing
`=` padding. -/
def btoaCore : List Nat → List Nat
  | [] => []
  | [a] => [b64Char (a / 4), b64Char (a % 4 * 16)]
  | [a, b] => [b64Char (a / 4), b64Char (a % 4 * 16 + b / 16),
      b64Char (b % 16 * 4)]
  | a :: b :: c :: rest =>
      b64Char (a / 4) :: b64Char (a % 4 * 16 + b / 16) ::
        b64Char (b % 16 * 4 + c / 64) :: b64Char (c % 64) :: btoaCore rest

/-- The trailing `=` padding emitted by `btoa`, by input length mod 3. -/
def btoaPad : List Nat → List Nat
  | [] => []
  | [_] => [61, 61]
  | [_, _] => [61]
  | _ :: _ :: _ :: rest => btoaPad rest

/-- ASCII whitespace, removed first by forgiving-base64 decode. -/
def isB64Ws (c : Nat) : Bool :=
  c = 9 || c = 10 || c = 12 || c = 13 || c = 32

/-- Padding removal step of forgiving-base64: when the length is a multiple
of 4, strip one or two trailing `=`. -/
def atobStripPad (data : List Nat) : List Nat :=
  if data.length % 4 = 0 then
    match data.reverse with
    | c1 :: c2 :: rest =>
        if c1 = 61 then
          (if c2 = 61 then rest.reverse else (c2 :: rest).reverse)
        else data
    | [c1] => if c1 = 61 then [] else data
    | [] => data
  else data

/-- Bit-accumulation loop of forgiving-base64 decode: each alphabet char
contributes 6 bits; at 24 bits three bytes are output; a final buffer of
12 or 18 bits yields one or two bytes after discarding the low 4 or 2
bits; any non-alphabet char (including a stray `=`) fails. -/
def atobLoop : List Nat → Nat → Nat → Option (List Nat)
  | [], buffer, bits =>
    if bits = 12 then some [buffer / 16]
    else if bits = 18 then some [buffer / 4 / 256, buffer / 4 % 256]
    else if bits = 0 then some []
    else none
  | c :: rest, buffer, bits =>
    match b64Index c with
    | none => none
    | some idx =>
      if bits = 18 then
        match atobLoop rest 0 0 with
        | none => none
        | some out =>
            some ((buffer * 64 + idx) / 65536 ::
              (buffer * 64 + idx) / 256 % 256 :: (buffer * 64 + idx) % 256 :: out)
      else atobLoop rest (buffer * 64 + idx) (bits + 6)

/-- Platform `atob` (WHATWG forgiving-base64 decode): remove ASCII
whitespace, strip the padding, reject a length of 1 mod 4, then run the
bit-accumulation loop. -/
def atob (s : List Nat) : Option (List Nat) :=
  let data := s.filter (fun c => !isB64Ws c)
  let data := atobStripPad data
  if data.length % 4 = 1 then none
  else atobLoop data 0 0

/-- Source `bufferToBase64(buffer)`: the bytes become a binary string via
`String.fromCharCode` (identity on the char-code representation) and are
passed to `btoa`. -/
def bufferToBase64 (buffer : List Nat) : List Nat := btoa buffer

/-- Source `base64ToBytes(base64)`: `atob` decodes the string, then
`charCodeAt` reads the bytes back (identity on the representation).
An invalid input makes `atob` throw, modelled by `none`. -/
def base64ToBytes (base64 : List Nat) : Option (List Nat) := atob base64

/-! ### Round-trip facts about the base64 pair -/

theorem b64Index_b64Char : ∀ i : Nat, i < 64 → b64Index (b64Char i) = some i := by
  decide

theorem b64Char_range (n : Nat) : 43 ≤ b64Char n ∧ b64Char n ≤ 122 := by
  unfold b64Char
  split_ifs <;> omega

theorem b64Char_ne_padding (n : Nat) : b64Char n ≠ 61 := by
  unfold b64Char
  split_ifs <;> omega

theorem isB64Ws_b64Char (n : Nat) : isB64Ws (b64Char n) = false := by
  have h := b64Char_range n
  simp only [isB64Ws, Bool.or_eq_false_iff, decide_eq_false_iff_not]
  omega

theorem btoa_eq_core_pad : ∀ l : List Nat, btoa l = btoaCore l ++ btoaPad l
  | [] => rfl
  | [_] => rfl
  | [_, _] => rfl
  | a :: b :: c :: rest => by
    simp only [btoa, btoaCore, btoaPad, List.cons_append, List.cons.injEq,
      true_and]
    exact btoa_eq_core_pad rest

theorem btoa_length_mod4 : ∀ l : List Nat, (btoa l).length % 4 = 0
  | [] => rfl
  | [_] => by simp [btoa]
  | [_, _] => by simp [btoa]
  | a :: b :: c :: rest => by
    simp only [btoa, List.length_cons]
    have := btoa_length_mod4 rest
    omega

theorem btoaCore_length_mod4 : ∀ l : List Nat, (btoaCore l).length % 4 ≠ 1
  | [] => by simp [btoaCore]
  | [_] => by simp [btoaCore]
  | [_, _] => by simp [btoaCore]
  | a :: b :: c :: rest => by
    simp only [btoaCore, List.length_cons]
    have := btoaCore_length_mod4 rest
    omega

theorem btoaCore_mem : ∀ l : List Nat, ∀ x ∈ btoaCore l, ∃ m, x = b64Char m
  | [] => by simp [btoaCore]
  | [a] => by
    intro x hx
    simp only [btoaCore, List.mem_cons, List.not_mem_nil, or_false] at hx
    rcases hx with h | h <;> exact ⟨_, h⟩
  | [a, b] => by
    intro x hx
    simp only [btoaCore, List.mem_cons, List.not_mem_nil, or_false] at hx
    rcases hx with h | h | h <;> exact ⟨_, h⟩
  | a :: b :: c :: rest => by
    intro x hx
    simp only [btoaCore, List.mem_cons] at hx
    rcases hx with h | h | h | h | h
    · exact ⟨_, h⟩
    · exact ⟨_, h⟩
    · exact ⟨_, h⟩
    · exact ⟨_, h⟩
    · exact btoaCore_mem rest x h

theorem btoa_mem : ∀ l : List Nat, ∀ x ∈ btoa l, (∃ m, x = b64Char m) ∨ x = 61 := by
  intro l x hx
  rw [btoa_eq_core_pad] at hx
  rcases List.mem_append.mp hx with h | h
  · exact Or.inl (btoaCore_mem l x h)
  · right
    revert h
    have : ∀ l2 : List Nat, ∀ y ∈ btoaPad l2, y = 61 := by
      intro l2
      induction l2 using btoaPad.induct with
      | case1 => simp [btoaPad]
      | case2 => simp [btoaPad]
      | case3 => simp [btoaPad]
      | case4 _ _ _ rest ih => simpa [btoaPad] using ih
    exact this l x

theorem btoaPad_shape (l : List Nat) :
    btoaPad l = [] ∨ btoaPad l = [61] ∨ btoaPad l = [61, 61] := by
  induction l using btoaPad.induct with
  | case1 => left; rfl
  | case2 => right; right; rfl
  | case3 => right; left; rfl
  | case4 _ _ _ rest ih => exact ih

/-- Stripping padding from an alphabet-only prefix followed by the padding
itself recovers the prefix. -/
theorem atobStripPad_core_pad (core pad : List Nat)
    (hmem : ∀ x ∈ core, ∃ m, x = b64Char m)
    (hpad : pad = [] ∨ pad = [61] ∨ pad = [61, 61])
    (hlen : (core ++ pad).length % 4 = 0) :
    atobStripPad (core ++ pad) = core := by
  unfold atobStripPad
  rw [if_pos hlen]
  rcases hpad with hp | hp | hp
  · subst hp
    rw [List.append_nil]
    cases h : core.reverse with
    | nil => rfl
    | cons c1 tl =>
      have hc1mem : c1 ∈ core := by
        have : c1 ∈ core.reverse := by rw [h]; exact List.mem_cons_self c1 tl
        exact List.mem_reverse.mp this
      obtain ⟨m, hm⟩ := hmem c1 hc1mem
      have hne : c1 ≠ 61 := by rw [hm]; exact b64Char_ne_padding m
      cases tl with
      | nil =>
        show (if c1 = 61 then [] else core) = core
        rw [if_neg hne]
      | cons c2 tl2 =>
        show (if c1 = 61 then
            (if c2 = 61 then tl2.reverse else (c2 :: tl2).reverse)
          else core) = core
        rw [if_neg hne]
  · subst hp
    have hrev : (core ++ [61]).reverse = 61 :: core.reverse := by
      rw [List.reverse_append]; rfl
    rw [hrev]
    cases h : core.reverse with
    | nil =>
      exfalso
      have : core = [] := List.reverse_eq_nil_iff.mp h
      subst this
      simp at hlen
    | cons c2 tl2 =>
      have hc2mem : c2 ∈ core := by
        have : c2 ∈ core.reverse := by rw [h]; exact List.mem_cons_self c2 tl2
        exact List.mem_reverse.mp this
      obtain ⟨m, hm⟩ := hmem c2 hc2mem
      have hne : c2 ≠ 61 := by rw [hm]; exact b64Char_ne_padding m
      show (if (61 : Nat) = 61 then
          (if c2 = 61 then tl2.reverse else (c2 :: tl2).reverse)
        else core ++ [61]) = core
      rw [if_pos rfl, if_neg hne, ← h, List.reverse_reverse]
  · subst hp
    have hrev : (core ++ [61, 61]).reverse = 61 :: 61 :: core.reverse := by
      rw [List.reverse_append]; rfl
    rw [hrev]
    show (if (61 : Nat) = 61 then
        (if (61 : Nat) = 61 then core.reverse.reverse
          else (61 :: core.reverse).reverse)
      else core ++ [61, 61]) = core
    rw [if_pos rfl, if_pos rfl, List.reverse_reverse]

/-- The decode loop inverts the unpadded encoding of any byte list. -/
theorem atobLoop_btoaCore : ∀ l : List Nat, (∀ x ∈ l, x < 256) →
    atobLoop (btoaCore l) 0 0 = some l
  | [], _ => rfl
  | [a], h => by
    have ha : a < 256 := h a (by simp)
    have h1 : b64Index (b64Char (a / 4)) = some (a / 4) :=
      b64Index_b64Char _ (by omega)
    have h2 : b64Index (b64Char (a % 4 * 16)) = some (a % 4 * 16) :=
      b64Index_b64Char _ (by omega)
    norm_num [btoaCore, atobLoop, h1, h2]
    omega
  | [a, b], h => by
    have ha : a < 256 := h a (by simp)
    have hb : b < 256 := h b (by simp)
    have h1 : b64Index (b64Char (a / 4)) = some (a / 4) :=
      b64Index_b64Char _ (by omega)
    have h2 : b64Index (b64Char (a % 4 * 16 + b / 16)) = some (a % 4 * 16 + b / 16) :=
      b64Index_b64Char _ (by omega)
    have h3 : b64Index (b64Char (b % 16 * 4)) = some (b % 16 * 4) :=
      b64Index_b64Char _ (by omega)
    norm_num [btoaCore, atobLoop, h1, h2, h3]
    omega
  | a :: b :: c :: rest, h => by
    have ha : a < 256 := h a (by simp)
    have hb : b < 256 := h b (by simp)
    have hc : c < 256 := h c (by simp)
    have h1 : b64Index (b64Char (a / 4)) = some (a / 4) :=
      b64Index_b64Char _ (by omega)
    have h2 : b64Index (b64Char (a % 4 * 16 + b / 16)) = some (a % 4 * 16 + b / 16) :=
      b64Index_b64Char _ (by omega)
    have h3 : b64Index (b64Char (b % 16 * 4 + c / 64)) = some (b % 16 * 4 + c / 64) :=
      b64Index_b64Char _ (by omega)
    have h4 : b64Index (b64Char (c % 64)) = some (c % 64) :=
      b64Index_b64Char _ (by omega)
    have ih : atobLoop (btoaCore rest) 0 0 = some rest :=
      atobLoop_btoaCore rest (fun x hx => h x (by simp [hx]))
    norm_num [btoaCore, atobLoop, h1, h2, h3, h4, ih]
    omega

/-- Claim C9: the base64 pair used to carry ciphertext and nonces is a
lossless round-trip: `base64ToBytes (bufferToBase64 b) = b` for every byte
list `b`. -/
theorem base64_roundtrip (bytes : List Nat) (h : ∀ x ∈ bytes, x < 256) :
    base64ToBytes (bufferToBase64 bytes) = some bytes := by
  simp only [base64ToBytes, bufferToBase64, atob]
  have hfilter : (btoa bytes).filter (fun c => !isB64Ws c) = btoa bytes := by
    rw [List.filter_eq_self]
    intro x hx
    rcases btoa_mem bytes x hx with ⟨m, hm⟩ | hm
    · rw [hm, isB64Ws_b64Char]; rfl
    · rw [hm]; rfl
  rw [hfilter]
  have hstrip : atobStripPad (btoa bytes) = btoaCore bytes := by
    rw [btoa_eq_core_pad]
    apply atobStripPad_core_pad
    · exact btoaCore_mem bytes
    · exact btoaPad_shape bytes
    · rw [← btoa_eq_core_pad]; exact btoa_length_mod4 bytes
  rw [hstrip]
  rw [if_neg (btoaCore_length_mod4 bytes)]
  exact atobLoop_btoaCore bytes h

/-- Witness for C9 at a concrete four-byte buffer. -/
theorem base64_roundtrip_witness :
    (∀ x ∈ ([0, 255, 16, 3] : List Nat), x < 256) ∧
      base64ToBytes (bufferToBase64 [0, 255, 16, 3]) = some [0, 255, 16, 3] :=
  ⟨by decide, base64_roundtrip [0, 255, 16, 3] (by decide)⟩

/-! ## Relay server (`server.js`)

The socket.io relay keeps two process-wide `Map`s: `socketsByUser`
(principal id to live connection handle) and `undeliveredMessages`
(principal id to queued events).  Maps are modelled as functions into
`Option`; emitting on a socket is modelled by appending to an emission
log, which records the receiving handle, the event name and the payload
in order. -/

/-- Functional update of a JS `Map`: `mapSet m k v` is `m.set(k, v)` for
`v = some _` and `m.delete(k)` for `v = none`. -/
def mapSet (m : String → Option α) (k : String) (v : Option α) :
    String → Option α :=
  fun q => if q = k then v else m q

/-- A relay event payload, rewritten by the router to carry the sender id:
`dh-public` carries `{from, publicKey}`; `secure-message` carries
`{from, toUserId, imageDataUrl, iv}` (the spread of the client payload). -/
inductive SPayload where
  | dhPublic (fromUser : String) (publicKey : Nat)
  | secureMessage (fromUser toUserId : String) (imageDataUrl : List Nat)
      (iv : List Nat)
deriving DecidableEq

/-- The relay server state: the presence map, the store-and-forward queue
map and the log of socket emissions `(handle, event name, payload)`. -/
structure ServerState where
  socketsByUser : String → Option Nat
  undeliveredMessages : String → Option (List (String × SPayload))
  emitted : List (Nat × String × SPayload)

/-- Source `sendOrStore(userId, event, payload)`: emit immediately when a
handle is registered, else append to the target's undelivered bucket
(creating it if absent). -/
def sendOrStore (st : ServerState) (userId : String) (event : String)
    (payload : SPayload) : ServerState :=
  match st.socketsByUser userId with
  | some sock => { st with emitted := st.emitted ++ [(sock, event, payload)] }
  | none =>
    let bucket := (st.undeliveredMessages userId).getD []
    { st with undeliveredMessages :=
        mapSet st.undeliveredMessages userId (some (bucket ++ [(event, payload)])) }

/-- Source `io.on('connection')` prologue: register the handle, emit every
queued event to it in order, then reset the queue to the empty bucket. -/
def handleConnection (st : ServerState) (userId : String) (sock : Nat) :
    ServerState :=
  let st1 := { st with socketsByUser := mapSet st.socketsByUser userId (some sock) }
  let pending : List (String × SPayload) := (st1.undeliveredMessages userId).getD []
  let st2 := { st1 with emitted :=
      st1.emitted ++ pending.map (fun (m : String × SPayload) => (sock, m.1, m.2)) }
  { st2 with undeliveredMessages := mapSet st2.undeliveredMessages userId (some []) }

/-- Source `socket.on('dh-public')`: drop silently unless the target is in
the sender's friend set, else route `{from, publicKey}`. -/
def onDhPublic (st : ServerState) (senderId : String) (senderFriends : List String)
    (toUserId : String) (publicKey : Nat) : ServerState :=
  if toUserId ∈ senderFriends then
    sendOrStore st toUserId "dh-public" (SPayload.dhPublic senderId publicKey)
  else st

/-- Source `socket.on('secure-message')`: drop silently unless the target
is in the sender's friend set, else route the payload spread with `from`. -/
def onSecureMessage (st : ServerState) (senderId : String)
    (senderFriends : List String) (toUserId : String) (imageDataUrl : List Nat)
    (iv : List Nat) : ServerState :=
  if toUserId ∈ senderFriends then
    sendOrStore st toUserId "secure-message"
      (SPayload.secureMessage senderId toUserId imageDataUrl iv)
  else st

/-- Source `socket.on('disconnect')`: `socketsByUser.delete(socket.user.id)`,
unconditionally for the connection's principal id. -/
def onDisconnect (st : ServerState) (userId : String) : ServerState :=
  { st with socketsByUser := mapSet st.socketsByUser userId none }

/-! ### Server theorems -/

theorem mapSet_same (m : String → Option α) (k : String) (v : Option α) :
    mapSet m k v k = v := by
  simp [mapSet]

theorem mapSet_other (m : String → Option α) (k q : String) (v : Option α)
    (h : q ≠ k) : mapSet m k v q = m q := by
  simp [mapSet, h]

/-- Claim C8: `sendOrStore` has exactly one of two effects.  With a
registered handle it emits to that handle and leaves the undelivered map
untouched; with no handle it emits nothing and appends the payload at the
tail of the target's bucket, leaving every other bucket and the presence
map untouched. -/
theorem sendOrStore_frame (st : ServerState) (userId : String) (event : String)
    (payload : SPayload) :
    (∀ sock, st.socketsByUser userId = some sock →
      sendOrStore st userId event payload =
        { st with emitted := st.emitted ++ [(sock, event, payload)] }) ∧
    (st.socketsByUser userId = none →
      (sendOrStore st userId event payload).emitted = st.emitted ∧
      (sendOrStore st userId event payload).undeliveredMessages userId =
        some ((st.undeliveredMessages userId).getD [] ++ [(event, payload)]) ∧
      (∀ q, q ≠ userId →
        (sendOrStore st userId event payload).undeliveredMessages q =
          st.undeliveredMessages q) ∧
      (sendOrStore st userId event payload).socketsByUser = st.socketsByUser) := by
  constructor
  · intro sock hsock
    unfold sendOrStore
    rw [hsock]
  · intro hnone
    unfold sendOrStore
    rw [hnone]
    refine ⟨rfl, mapSet_same _ _ _, ?_, rfl⟩
    intro q hq
    exact mapSet_other _ _ _ _ hq

/-- Witness for C8 in both branches, at concrete one-principal states. -/
theorem sendOrStore_frame_witness :
    ((⟨fun _ => some 7, fun _ => none, []⟩ : ServerState).socketsByUser "bob" = some 7 ∧
      sendOrStore ⟨fun _ => some 7, fun _ => none, []⟩ "bob" "dh-public"
          (SPayload.dhPublic "alice" 1) =
        { (⟨fun _ => some 7, fun _ => none, []⟩ : ServerState) with
            emitted := [] ++ [(7, "dh-public", SPayload.dhPublic "alice" 1)] }) ∧
    ((⟨fun _ => none, fun _ => none, []⟩ : ServerState).socketsByUser "bob" = none ∧
      (sendOrStore ⟨fun _ => none, fun _ => none, []⟩ "bob" "dh-public"
          (SPayload.dhPublic "alice" 1)).undeliveredMessages "bob" =
        some ((((⟨fun _ => none, fun _ => none, []⟩ : ServerState)).undeliveredMessages "bob").getD [] ++
          [("dh-public", SPayload.dhPublic "alice" 1)])) :=
  ⟨⟨rfl, (sendOrStore_frame _ "bob" _ _).1 7 rfl⟩,
    ⟨rfl, ((sendOrStore_frame _ "bob" _ _).2 rfl).2.1⟩⟩

/-- Enqueuing through `sendOrStore` while the target is offline touches
only the target's bucket, appending in order; presence and the emission
log are untouched. -/
theorem sendOrStore_offline_fold :
    ∀ (evs : List (String × SPayload)) (st : ServerState) (uid : String),
      st.socketsByUser uid = none →
      (evs.foldl (fun s e => sendOrStore s uid e.1 e.2) st).socketsByUser =
          st.socketsByUser ∧
        (evs.foldl (fun s e => sendOrStore s uid e.1 e.2) st).emitted = st.emitted ∧
        ((evs.foldl (fun s e => sendOrStore s uid e.1 e.2) st).undeliveredMessages
            uid).getD [] =
          (st.undeliveredMessages uid).getD [] ++ evs := by
  intro evs
  induction evs with
  | nil =>
    intro st uid _
    exact ⟨rfl, rfl, by simp⟩
  | cons e evs ih =>
    intro st uid hoff
    have hstep : sendOrStore st uid e.1 e.2 =
        { st with undeliveredMessages := mapSet st.undeliveredMessages uid (some ((st.undeliveredMessages uid).getD [] ++ [(e.1, e.2)])) } := by
      unfold sendOrStore
      rw [hoff]
    have hoff2 : (sendOrStore st uid e.1 e.2).socketsByUser uid = none := by
      rw [hstep]; exact hoff
    have ihs := ih (sendOrStore st uid e.1 e.2) uid hoff2
    rw [List.foldl_cons]
    refine ⟨?_, ?_, ?_⟩
    · rw [ihs.1, hstep]
    · rw [ihs.2.1, hstep]
    · rw [ihs.2.2, hstep]
      simp only [mapSet_same, Option.getD_some]
      simp

/-- Claim C4: every sequence of events enqueued for an offline principal
(with an empty starting bucket) is delivered on the next connection to the
newly registered handle, in FIFO order, each exactly once, and the
principal's undelivered bucket is empty afterwards.  Nothing is emitted
while the principal stays offline. -/
theorem storeForward_fifo (st : ServerState) (uid : String)
    (evs : List (String × SPayload)) (sock : Nat)
    (hoff : st.socketsByUser uid = none)
    (hempty : (st.undeliveredMessages uid).getD [] = []) :
    (evs.foldl (fun s e => sendOrStore s uid e.1 e.2) st).emitted = st.emitted ∧
    (handleConnection (evs.foldl (fun s e => sendOrStore s uid e.1 e.2) st)
        uid sock).emitted =
      st.emitted ++ evs.map (fun e => (sock, e.1, e.2)) ∧
    (handleConnection (evs.foldl (fun s e => sendOrStore s uid e.1 e.2) st)
        uid sock).undeliveredMessages uid = some [] ∧
    (handleConnection (evs.foldl (fun s e => sendOrStore s uid e.1 e.2) st)
        uid sock).socketsByUser uid = some sock := by
  obtain ⟨hsock, hemit, hbucket⟩ := sendOrStore_offline_fold evs st uid hoff
  rw [hempty, List.nil_append] at hbucket
  refine ⟨hemit, ?_, ?_, ?_⟩
  · simp only [handleConnection, hbucket, hemit]
  · simp only [handleConnection, mapSet_same]
  · simp only [handleConnection, mapSet_same]

/-- An empty relay state: nobody connected, no queued events, no
emissions. -/
def srvEmpty : ServerState := ⟨fun _ => none, fun _ => none, []⟩

/-- Two concrete relay events addressed to `bob`. -/
def c4events : List (String × SPayload) :=
  [("dh-public", SPayload.dhPublic "alice" 1),
    ("secure-message", SPayload.secureMessage "alice" "bob" [] [])]

/-- Witness for C4: two events queued for the offline principal `bob` are
delivered in order to the new handle 5 and the bucket ends empty. -/
theorem storeForward_fifo_witness :
    srvEmpty.socketsByUser "bob" = none ∧
      (srvEmpty.undeliveredMessages "bob").getD [] = [] ∧
      (handleConnection
          (c4events.foldl (fun s e => sendOrStore s "bob" e.1 e.2) srvEmpty)
          "bob" 5).emitted =
        srvEmpty.emitted ++ c4events.map (fun e => (5, e.1, e.2)) ∧
      (handleConnection
          (c4events.foldl (fun s e => sendOrStore s "bob" e.1 e.2) srvEmpty)
          "bob" 5).undeliveredMessages "bob" = some [] :=
  ⟨rfl, rfl,
    (storeForward_fifo srvEmpty "bob" c4events 5 rfl rfl).2.1,
    (storeForward_fifo srvEmpty "bob" c4events 5 rfl rfl).2.2.1⟩

/-- Claim C5: when the target is not in the sender's friend set at send
time, both relay handlers drop the event silently: the state is unchanged,
so nothing is delivered, nothing is queued, and no error or notification
reaches the sender. -/
theorem trust_gating (st : ServerState) (senderId : String)
    (senderFriends : List String) (toUserId : String) (publicKey : Nat)
    (imageDataUrl iv : List Nat) (h : toUserId ∉ senderFriends) :
    onDhPublic st senderId senderFriends toUserId publicKey = st ∧
      onSecureMessage st senderId senderFriends toUserId imageDataUrl iv = st :=
  ⟨by unfold onDhPublic; rw [if_neg h], by unfold onSecureMessage; rw [if_neg h]⟩

/-- Witness for C5 with an empty friend set. -/
theorem trust_gating_witness :
    ("bob" ∉ ([] : List String)) ∧
      onDhPublic ⟨fun _ => some 3, fun _ => none, []⟩ "alice" [] "bob" 1 =
        ⟨fun _ => some 3, fun _ => none, []⟩ ∧
      onSecureMessage ⟨fun _ => some 3, fun _ => none, []⟩ "alice" [] "bob" [] [] =
        ⟨fun _ => some 3, fun _ => none, []⟩ :=
  ⟨by simp,
    (trust_gating _ "alice" [] "bob" 1 [] [] (by simp)).1,
    (trust_gating _ "alice" [] "bob" 1 [] [] (by simp)).2⟩

/-- Claim C10: the disconnect handler deletes the presence entry for the
connection's principal unconditionally.  If the same principal registered
a newer handle `s2` after the old connection `s1`, the old connection's
disconnect still removes `s2`, leaving the principal offline despite its
live newer connection. -/
theorem disconnect_unconditional (st : ServerState) (uid : String) (s1 s2 : Nat) :
    ((handleConnection (handleConnection st uid s1) uid s2).socketsByUser uid =
        some s2) ∧
      ((onDisconnect (handleConnection (handleConnection st uid s1) uid s2)
          uid).socketsByUser uid = none) ∧
      (∀ (st2 : ServerState) (uid2 : String),
        (onDisconnect st2 uid2).socketsByUser uid2 = none) := by
  refine ⟨?_, ?_, ?_⟩
  · simp only [handleConnection, mapSet_same]
  · simp only [onDisconnect, mapSet_same]
  · intro st2 uid2
    simp only [onDisconnect, mapSet_same]

/-! ## Client pipeline (`App.tsx`)

The client keeps per-peer key-exchange state (`sharedKeys`), a pending
buffer of inbound payloads that arrived before a shared key existed
(`pendingMessagesRef`), the message threads, and a socket.  Web Crypto
values are modelled by handles: a key pair is the `Nat` issued by a
fresh-key counter (`nextKeyId` models `createKeyPair`), an exported public
key (`exportPublicKey`, JWK) is its pair's handle, and the fallible
platform primitives `importPublicKey`, `deriveSharedKey` and
`decryptWithKey` / `encryptWithKey` are passed in as function parameters
(`imp`, `der`, `dec`, `enc`); `none` models a throw.  React concerns
(`useState` versions, `flowStage`, uuids, timestamps, the draft box) carry
no protocol state and are elided. -/

/-- Source `DHState`: `{ keyPair?, sharedKey?, sentPublic? }`. -/
structure DHState where
  keyPair : Option Nat
  sharedKey : Option Nat
  sentPublic : Bool
deriving DecidableEq

/-- An inbound `secure-message` payload `{from, imageDataUrl, iv}`; the
image is carried as its RGBA buffer and the `iv` as its base64 char
codes. -/
structure Payload where
  fromUser : String
  imageData : List Nat
  iv : List Nat
deriving DecidableEq

/-- A chat message as pushed by `pushMessage` (uuid and timestamp
elided). -/
structure CMessage where
  fromUser : String
  text : List Nat
  imageData : List Nat
  status : String
deriving DecidableEq

/-- What the client emits on its socket. -/
inductive ClientEmit where
  | dhPublic (toUserId : String) (publicKey : Nat)
  | secureMessage (toUserId : String) (imageDataUrl : List Nat) (iv : List Nat)
deriving DecidableEq

/-- The client state: `sharedKeys`, `pendingMessagesRef`, `threadsRef`,
the socket emission log, the status bar, the friends list (id and
username, for `getFriendName`), the own user id and the fresh-key
counter. -/
structure ClientState where
  sharedKeys : String → Option DHState
  pendingMessages : String → Option (List Payload)
  threads : String → List CMessage
  socketEmits : List ClientEmit
  status : String
  friends : List (String × String)
  selfId : String
  nextKeyId : Nat

/-- Source `getFriendName(friendId)`. -/
def getFriendName (st : ClientState) (friendId : String) : String :=
  (((st.friends.find? (fun f => f.1 = friendId)).map (fun f => f.2))).getD "Friend"

/-- Source `pushMessage(friendId, message)`: append to the thread. -/
def pushMessage (st : ClientState) (friendId : String) (m : CMessage) :
    ClientState :=
  { st with threads := fun f => if f = friendId then st.threads friendId ++ [m] else st.threads f }

/-- Source `queuePendingMessage(friendId, payload)`: append the raw inbound
payload to the pending bucket for that friend. -/
def queuePendingMessage (st : ClientState) (friendId : String) (p : Payload) :
    ClientState :=
  { st with pendingMessages := mapSet st.pendingMessages friendId (some ((st.pendingMessages friendId).getD [] ++ [p])) }

/-- Source `ensureDHState(friendId)`: create the per-peer state on first
use and lazily generate the ephemeral key pair; returns the updated client
state and the peer state (the source mutates the aliased map entry). -/
def ensureDHState (st : ClientState) (friendId : String) :
    ClientState × DHState :=
  match st.sharedKeys friendId with
  | some state =>
    if state.keyPair.isSome then (st, state)
    else
      ({ st with nextKeyId := st.nextKeyId + 1, sharedKeys := mapSet st.sharedKeys friendId (some { state with keyPair := some st.nextKeyId }) },
        { state with keyPair := some st.nextKeyId })
  | none =>
    ({ st with nextKeyId := st.nextKeyId + 1, sharedKeys := mapSet st.sharedKeys friendId (some ⟨some st.nextKeyId, none, false⟩) },
      ⟨some st.nextKeyId, none, false⟩)

/-- Source `emitPublicKey(friendId)`: ensure the DH state, and unless the
public key was already sent (or no pair exists), emit `dh-public` with the
exported public key and set `sentPublic`. -/
def emitPublicKey (st : ClientState) (friendId : String) : ClientState :=
  let r := ensureDHState st friendId
  if r.2.sentPublic then r.1
  else
    match r.2.keyPair with
    | none => r.1
    | some kp =>
      let st2 := { r.1 with socketEmits := r.1.socketEmits ++ [ClientEmit.dhPublic friendId kp] }
      { st2 with sharedKeys := mapSet st2.sharedKeys friendId (some { r.2 with sentPublic := true }) }

/-- Source `ensureSharedKey(friendId)`: return the shared key when one is
derived; otherwise announce the local public key and return null. -/
def ensureSharedKey (st : ClientState) (friendId : String) :
    ClientState × Option Nat :=
  match st.sharedKeys friendId with
  | some state =>
    match state.sharedKey with
    | some k => (st, some k)
    | none => (emitPublicKey st friendId, none)
  | none => (emitPublicKey st friendId, none)

/-- Source `decryptIncoming(payload)`: with no shared key for the sender,
queue the raw payload, announce the local key and set a waiting status;
with a key, extract the stego payload, base64-decode ciphertext and iv,
decrypt (`dec`), and push the received message; any throw in that pipeline
is caught and leaves the state unchanged. -/
def decryptIncoming (dec : Nat → List Nat → List Nat → Option (List Nat))
    (st : ClientState) (p : Payload) : ClientState :=
  match (st.sharedKeys p.fromUser).bind DHState.sharedKey with
  | none =>
    let st1 := queuePendingMessage st p.fromUser p
    let st2 := emitPublicKey st1 p.fromUser
    { st2 with status := "Waiting for peer key to decrypt message" }
  | some key =>
    match extractTextFromImage p.imageData with
    | none => st
    | some stegoPayload =>
      match base64ToBytes stegoPayload with
      | none => st
      | some cipherBytes =>
        match base64ToBytes p.iv with
        | none => st
        | some ivBytes =>
          match dec key cipherBytes ivBytes with
          | none => st
          | some plain =>
            pushMessage st p.fromUser ⟨p.fromUser, plain, p.imageData, "received"⟩

/-- Source `runPendingMessages(friendId)`: nothing to do for a missing or
empty bucket; otherwise delete the bucket first, then replay every held
payload through `decryptIncoming` in order. -/
def runPendingMessages (dec : Nat → List Nat → List Nat → Option (List Nat))
    (st : ClientState) (friendId : String) : ClientState :=
  match st.pendingMessages friendId with
  | none => st
  | some [] => st
  | some bucket =>
    let st1 := { st with pendingMessages := mapSet st.pendingMessages friendId none }
    bucket.foldl (decryptIncoming dec) st1

/-- Source `deriveSharedSecret(friendId, theirPublic)` (the handler body of
`PublicKeyAnnounce`): ensure local DH state, import the peer key (`imp`),
derive the shared key (`der`) and store it, set the status, replay the
pending bucket, and finally announce the local key if not yet sent.  A
throw of `importPublicKey` or `deriveSharedKey` propagates to the caller;
the state mutated so far (the lazily created pair) persists, which
`Except.error` carries. -/
def deriveSharedSecret (imp : Nat → Option Nat) (der : Nat → Nat → Option Nat)
    (dec : Nat → List Nat → List Nat → Option (List Nat))
    (st : ClientState) (friendId : String) (theirPublic : Nat) :
    Except ClientState ClientState :=
  let r := ensureDHState st friendId
  match imp theirPublic with
  | none => .error r.1
  | some imported =>
    match r.2.keyPair with
    | none => .error r.1
    | some kp =>
      match der kp imported with
      | none => .error r.1
      | some key =>
        let state2 : DHState := { r.2 with sharedKey := some key }
        let st2 := { r.1 with sharedKeys := mapSet r.1.sharedKeys friendId (some state2), status := "Secure channel established with " ++ getFriendName r.1 friendId }
        let st3 := runPendingMessages dec st2 friendId
        if state2.sentPublic then .ok st3 else .ok (emitPublicKey st3 friendId)

/-- Source `handleSendMessage()` after its guards (a logged-in user, a
selected friend `targetId`, a nonempty trimmed draft `messageText`): ask
`ensureSharedKey`; with no key, report the waiting status (the plaintext
is not stored anywhere); with a key, encrypt (`enc`, producing ciphertext
and a fresh iv), base64 the ciphertext, embed it, emit `secure-message`,
push the sent message and report success; a capacity throw of
`embedTextInImage` is caught and reported as a failed send. -/
def handleSendMessage (enc : Nat → List Nat → List Nat × List Nat)
    (st : ClientState) (targetId : String) (messageText : List Nat) :
    ClientState :=
  let r := ensureSharedKey st targetId
  match r.2 with
  | none => { r.1 with status := "Waiting for shared key exchange" }
  | some key =>
    let c := enc key messageText
    let cipherBase64 := bufferToBase64 c.1
    match embedTextInImage cipherBase64 with
    | none => { r.1 with status := "Failed to send secure message" }
    | some stegoImage =>
      let st1 := { r.1 with socketEmits := r.1.socketEmits ++ [ClientEmit.secureMessage targetId stegoImage (bufferToBase64 c.2)] }
      let st2 := pushMessage st1 targetId ⟨st.selfId, messageText, stegoImage, "sent"⟩
      { st2 with status := "Encrypted message sent via image" }

/-! ### Client theorems -/

/-- Value of `ensureDHState` when no per-peer entry exists: a fresh entry
with a fresh key pair. -/
theorem ensureDHState_eq_missing (st : ClientState) (f : String)
    (hs : st.sharedKeys f = none) :
    ensureDHState st f =
      ({ st with nextKeyId := st.nextKeyId + 1, sharedKeys := mapSet st.sharedKeys f (some ⟨some st.nextKeyId, none, false⟩) },
        (⟨some st.nextKeyId, none, false⟩ : DHState)) := by
  simp [ensureDHState, hs]

/-- Value of `ensureDHState` when the entry exists with a key pair: a
no-op. -/
theorem ensureDHState_eq_present (st : ClientState) (f : String) (state : DHState)
    (hs : st.sharedKeys f = some state) (hkp : state.keyPair.isSome) :
    ensureDHState st f = (st, state) := by
  simp [ensureDHState, hs, hkp]

/-- Value of `ensureDHState` when the entry exists without a key pair: the
pair is generated in place. -/
theorem ensureDHState_eq_nopair (st : ClientState) (f : String) (state : DHState)
    (hs : st.sharedKeys f = some state) (hkp : state.keyPair.isSome = false) :
    ensureDHState st f =
      ({ st with nextKeyId := st.nextKeyId + 1, sharedKeys := mapSet st.sharedKeys f (some { state with keyPair := some st.nextKeyId }) },
        { state with keyPair := some st.nextKeyId }) := by
  simp [ensureDHState, hs, hkp]

/-- `ensureDHState` only ever touches `sharedKeys` (the peer entry) and the
fresh-key counter. -/
theorem ensureDHState_frame (st : ClientState) (f : String) :
    (ensureDHState st f).1.pendingMessages = st.pendingMessages ∧
      (ensureDHState st f).1.threads = st.threads ∧
      (ensureDHState st f).1.status = st.status ∧
      (ensureDHState st f).1.socketEmits = st.socketEmits ∧
      (∀ g, g ≠ f → (ensureDHState st f).1.sharedKeys g = st.sharedKeys g) := by
  cases hs : st.sharedKeys f with
  | none =>
    rw [ensureDHState_eq_missing st f hs]
    exact ⟨rfl, rfl, rfl, rfl, fun g hg => mapSet_other _ _ _ _ hg⟩
  | some state =>
    cases hkp : state.keyPair.isSome with
    | true =>
      rw [ensureDHState_eq_present st f state hs hkp]
      exact ⟨rfl, rfl, rfl, rfl, fun g _ => rfl⟩
    | false =>
      rw [ensureDHState_eq_nopair st f state hs hkp]
      exact ⟨rfl, rfl, rfl, rfl, fun g hg => mapSet_other _ _ _ _ hg⟩

/-- The peer entry after `ensureDHState`: the map holds the returned
state, `sharedKey` is preserved, the key pair now exists, an entry that
already had a pair is kept identical, and the `sentPublic` flag is
preserved (`false` for a fresh entry). -/
theorem ensureDHState_entry (st : ClientState) (f : String) :
    (ensureDHState st f).1.sharedKeys f = some (ensureDHState st f).2 ∧
      ((ensureDHState st f).2.sharedKey = (st.sharedKeys f).bind DHState.sharedKey) ∧
      ((ensureDHState st f).2.keyPair).isSome = true ∧
      (∀ state, st.sharedKeys f = some state → ∀ kp, state.keyPair = some kp →
        (ensureDHState st f).1.sharedKeys f = some state ∧ (ensureDHState st f).2 = state) ∧
      ((ensureDHState st f).2.sentPublic = ((st.sharedKeys f).map DHState.sentPublic).getD false) := by
  cases hs : st.sharedKeys f with
  | none =>
    rw [ensureDHState_eq_missing st f hs]
    refine ⟨mapSet_same _ _ _, rfl, rfl, ?_, rfl⟩
    intro state hstate
    cases hstate
  | some state =>
    cases hkp : state.keyPair.isSome with
    | true =>
      rw [ensureDHState_eq_present st f state hs hkp]
      refine ⟨hs, rfl, hkp, ?_, rfl⟩
      intro state2 hstate2 kp _
      cases hstate2
      exact ⟨hs, rfl⟩
    | false =>
      rw [ensureDHState_eq_nopair st f state hs hkp]
      refine ⟨mapSet_same _ _ _, rfl, rfl, ?_, rfl⟩
      intro state2 hstate2 kp hkp2
      cases hstate2
      rw [hkp2] at hkp
      cases hkp

/-- Claim C7 amended: a failed `onPeerPublicKey` (`deriveSharedSecret` with
a malformed or unusable peer key: `importPublicKey` or `deriveSharedKey`
throws) surfaces the error to the caller, and leaves `sharedKey`, the
`publicKeySent` flag, the status, the emission log, the pending buffers,
the threads and every other peer's entry unchanged; the one deviation from
the claim is the lazily created ephemeral key pair: when no local pair
existed yet, `ensureDHState` has already created one before the failure
(an existing pair is kept unchanged). -/
theorem key_agreement_failure_state (imp : Nat → Option Nat)
    (der : Nat → Nat → Option Nat)
    (dec : Nat → List Nat → List Nat → Option (List Nat))
    (st : ClientState) (f : String) (pk : Nat) (st1 : ClientState)
    (h : deriveSharedSecret imp der dec st f pk = .error st1) :
    st1.status = st.status ∧
      st1.socketEmits = st.socketEmits ∧
      st1.pendingMessages = st.pendingMessages ∧
      st1.threads = st.threads ∧
      ((st1.sharedKeys f).bind DHState.sharedKey =
        (st.sharedKeys f).bind DHState.sharedKey) ∧
      (∀ state, st.sharedKeys f = some state → ∀ kp, state.keyPair = some kp →
        st1.sharedKeys f = some state) ∧
      (∀ g, g ≠ f → st1.sharedKeys g = st.sharedKeys g) := by
  have hst1 : st1 = (ensureDHState st f).1 := by
    simp only [deriveSharedSecret] at h
    cases himp : imp pk with
    | none =>
      simp only [himp] at h
      exact (Except.error.inj h).symm
    | some imported =>
      simp only [himp] at h
      cases hkp : (ensureDHState st f).2.keyPair with
      | none =>
        simp only [hkp] at h
        exact (Except.error.inj h).symm
      | some kp =>
        simp only [hkp] at h
        cases hder : der kp imported with
        | none =>
          simp only [hder] at h
          exact (Except.error.inj h).symm
        | some key =>
          simp only [hder] at h
          split at h <;> cases h
  subst hst1
  obtain ⟨hp, ht, hs, he, hg⟩ := ensureDHState_frame st f
  obtain ⟨hentry, hkey, _, hkeep, _⟩ := ensureDHState_entry st f
  refine ⟨hs, he, hp, ht, ?_, ?_, hg⟩
  · rw [hentry]
    exact hkey
  · intro state hstate kp hkp
    exact (hkeep state hstate kp hkp).1

/-- A fresh client state: no peers, no buffers, no emissions. -/
def cliEmpty : ClientState :=
  ⟨fun _ => none, fun _ => none, fun _ => [], [], "Ready", [], "alice", 0⟩

/-- A failing `importPublicKey`: the peer key is malformed. -/
def impFail : Nat → Option Nat := fun _ => none

/-- A total `deriveSharedKey` stand-in. -/
def derOk : Nat → Nat → Option Nat := fun _ _ => some 7

/-- A failing `decryptWithKey` stand-in. -/
def decNone : Nat → List Nat → List Nat → Option (List Nat) := fun _ _ _ => none

/-- Counterexample to claim C7: on a state with no per-peer entry, a
malformed peer key makes `deriveSharedSecret` fail, but the failed call
has already created the local ephemeral key pair, so the key pair does not
hold the same value as before the call. -/
theorem key_agreement_counterexample :
    (cliEmpty.sharedKeys "bob").bind DHState.keyPair = none ∧
      deriveSharedSecret impFail derOk decNone cliEmpty "bob" 5 =
        .error (ensureDHState cliEmpty "bob").1 ∧
      ((ensureDHState cliEmpty "bob").1.sharedKeys "bob").bind DHState.keyPair =
        some 0 ∧
      ((ensureDHState cliEmpty "bob").1.sharedKeys "bob").bind DHState.keyPair ≠
        (cliEmpty.sharedKeys "bob").bind DHState.keyPair :=
  ⟨rfl, rfl, rfl, by decide⟩

/-- Witness for the amended C7 at the same concrete failing call. -/
theorem key_agreement_failure_state_witness :
    ((ensureDHState cliEmpty "bob").1.status = cliEmpty.status ∧
      (ensureDHState cliEmpty "bob").1.socketEmits = cliEmpty.socketEmits ∧
      (ensureDHState cliEmpty "bob").1.pendingMessages = cliEmpty.pendingMessages ∧
      (ensureDHState cliEmpty "bob").1.threads = cliEmpty.threads ∧
      (((ensureDHState cliEmpty "bob").1.sharedKeys "bob").bind DHState.sharedKey =
        (cliEmpty.sharedKeys "bob").bind DHState.sharedKey) ∧
      (∀ state, cliEmpty.sharedKeys "bob" = some state →
        ∀ kp, state.keyPair = some kp →
          (ensureDHState cliEmpty "bob").1.sharedKeys "bob" = some state) ∧
      (∀ g, g ≠ "bob" →
        (ensureDHState cliEmpty "bob").1.sharedKeys g = cliEmpty.sharedKeys g)) :=
  key_agreement_failure_state impFail derOk decNone cliEmpty "bob" 5
    (ensureDHState cliEmpty "bob").1 rfl

/-- The receive pipeline of `decryptIncoming` once a shared key exists:
stego-extract, base64-decode ciphertext and iv, decrypt; `none` when any
stage throws (the catch path). -/
def decodedMessageWith (dec : Nat → List Nat → List Nat → Option (List Nat))
    (key : Nat) (p : Payload) : Option CMessage :=
  match extractTextFromImage p.imageData with
  | none => none
  | some stegoPayload =>
    match base64ToBytes stegoPayload with
    | none => none
    | some cipherBytes =>
      match base64ToBytes p.iv with
      | none => none
      | some ivBytes =>
        (dec key cipherBytes ivBytes).map
          (fun plain => ⟨p.fromUser, plain, p.imageData, "received"⟩)

theorem pushMessage_sharedKeys (st : ClientState) (f : String) (m : CMessage) :
    (pushMessage st f m).sharedKeys = st.sharedKeys := rfl

theorem pushMessage_pendingMessages (st : ClientState) (f : String) (m : CMessage) :
    (pushMessage st f m).pendingMessages = st.pendingMessages := rfl

theorem pushMessage_threads_self (st : ClientState) (f : String) (m : CMessage) :
    (pushMessage st f m).threads f = st.threads f ++ [m] := by
  simp [pushMessage]

/-- With a shared key present and a failing pipeline, `decryptIncoming` is
the caught no-op. -/
theorem decryptIncoming_keyed_none (dec : Nat → List Nat → List Nat → Option (List Nat))
    (key : Nat) (st : ClientState) (p : Payload)
    (h : (st.sharedKeys p.fromUser).bind DHState.sharedKey = some key)
    (hd : decodedMessageWith dec key p = none) :
    decryptIncoming dec st p = st := by
  cases hx : extractTextFromImage p.imageData with
  | none => simp only [decryptIncoming, h, hx]
  | some sp =>
    cases hb : base64ToBytes sp with
    | none => simp only [decryptIncoming, h, hx, hb]
    | some cb =>
      cases hiv : base64ToBytes p.iv with
      | none => simp only [decryptIncoming, h, hx, hb, hiv]
      | some ivb =>
        cases hdec : dec key cb ivb with
        | none => simp only [decryptIncoming, h, hx, hb, hiv, hdec]
        | some plain =>
          simp [decodedMessageWith, hx, hb, hiv, hdec] at hd

/-- With a shared key present and a succeeding pipeline, `decryptIncoming`
pushes the received message. -/
theorem decryptIncoming_keyed_some (dec : Nat → List Nat → List Nat → Option (List Nat))
    (key : Nat) (st : ClientState) (p : Payload) (m : CMessage)
    (h : (st.sharedKeys p.fromUser).bind DHState.sharedKey = some key)
    (hd : decodedMessageWith dec key p = some m) :
    decryptIncoming dec st p = pushMessage st p.fromUser m := by
  cases hx : extractTextFromImage p.imageData with
  | none => simp [decodedMessageWith, hx] at hd
  | some sp =>
    cases hb : base64ToBytes sp with
    | none => simp [decodedMessageWith, hx, hb] at hd
    | some cb =>
      cases hiv : base64ToBytes p.iv with
      | none => simp [decodedMessageWith, hx, hb, hiv] at hd
      | some ivb =>
        cases hdec : dec key cb ivb with
        | none => simp [decodedMessageWith, hx, hb, hiv, hdec] at hd
        | some plain =>
          simp only [decodedMessageWith, hx, hb, hiv, hdec, Option.map_some,
            Option.map_some', Option.some.injEq] at hd
          subst hd
          simp only [decryptIncoming, h, hx, hb, hiv, hdec]

/-- Replaying a bucket of payloads from `f` through `decryptIncoming` with
a shared key present touches only the thread of `f`, appending exactly the
successfully decoded messages in order. -/
theorem foldl_decryptIncoming (dec : Nat → List Nat → List Nat → Option (List Nat))
    (key : Nat) (f : String) :
    ∀ (bucket : List Payload) (st : ClientState),
      (st.sharedKeys f).bind DHState.sharedKey = some key →
      (∀ p ∈ bucket, p.fromUser = f) →
      (bucket.foldl (decryptIncoming dec) st).sharedKeys = st.sharedKeys ∧
        (bucket.foldl (decryptIncoming dec) st).pendingMessages = st.pendingMessages ∧
        (bucket.foldl (decryptIncoming dec) st).threads f =
          st.threads f ++ bucket.filterMap (decodedMessageWith dec key) := by
  intro bucket
  induction bucket with
  | nil =>
    intro st _ _
    exact ⟨rfl, rfl, by simp⟩
  | cons p bucket ih =>
    intro st h hmem
    have hpf : p.fromUser = f := hmem p (List.mem_cons_self p bucket)
    have hkey : (st.sharedKeys p.fromUser).bind DHState.sharedKey = some key := by
      rw [hpf]; exact h
    have hmem2 : ∀ q ∈ bucket, q.fromUser = f := fun q hq => hmem q (List.mem_cons_of_mem p hq)
    rw [List.foldl_cons]
    cases hd : decodedMessageWith dec key p with
    | none =>
      rw [decryptIncoming_keyed_none dec key st p hkey hd]
      obtain ⟨h1, h2, h3⟩ := ih st h hmem2
      refine ⟨h1, h2, ?_⟩
      rw [h3, List.filterMap_cons_none hd]
    | some m =>
      rw [decryptIncoming_keyed_some dec key st p m hkey hd, hpf]
      have hkey2 : ((pushMessage st f m).sharedKeys f).bind DHState.sharedKey = some key := by
        rw [pushMessage_sharedKeys]; exact h
      obtain ⟨h1, h2, h3⟩ := ih (pushMessage st f m) hkey2 hmem2
      refine ⟨?_, ?_, ?_⟩
      · rw [h1, pushMessage_sharedKeys]
      · rw [h2, pushMessage_pendingMessages]
      · rw [h3, pushMessage_threads_self]
        simp [List.filterMap_cons, hd]

/-- `emitPublicKey` never touches the pending buffers or the threads. -/
theorem emitPublicKey_frame (st : ClientState) (f : String) :
    (emitPublicKey st f).pendingMessages = st.pendingMessages ∧
      (emitPublicKey st f).threads = st.threads := by
  obtain ⟨hp, ht, _, _, _⟩ := ensureDHState_frame st f
  simp only [emitPublicKey]
  split
  · exact ⟨hp, ht⟩
  · split
    · exact ⟨hp, ht⟩
    · exact ⟨hp, ht⟩

/-- A nonempty pending bucket is deleted first and then folded through
`decryptIncoming`. -/
theorem runPendingMessages_eq_fold (dec : Nat → List Nat → List Nat → Option (List Nat))
    (st : ClientState) (f : String) (bucket : List Payload)
    (h : st.pendingMessages f = some bucket) (hne : bucket ≠ []) :
    runPendingMessages dec st f =
      bucket.foldl (decryptIncoming dec)
        { st with pendingMessages := mapSet st.pendingMessages f none } := by
  cases bucket with
  | nil => exact absurd rfl hne
  | cons p bs => simp only [runPendingMessages, h]

/-- The successful branch of `deriveSharedSecret`, spelled out. -/
theorem deriveSharedSecret_ok_shape (imp : Nat → Option Nat)
    (der : Nat → Nat → Option Nat)
    (dec : Nat → List Nat → List Nat → Option (List Nat))
    (st : ClientState) (f : String) (pk imported kp key : Nat)
    (himp : imp pk = some imported)
    (hkp : (ensureDHState st f).2.keyPair = some kp)
    (hder : der kp imported = some key) :
    deriveSharedSecret imp der dec st f pk =
      (if ({ (ensureDHState st f).2 with sharedKey := some key } : DHState).sentPublic
       then Except.ok (runPendingMessages dec { (ensureDHState st f).1 with sharedKeys := mapSet (ensureDHState st f).1.sharedKeys f (some { (ensureDHState st f).2 with sharedKey := some key }), status := "Secure channel established with " ++ getFriendName (ensureDHState st f).1 f } f)
       else Except.ok (emitPublicKey (runPendingMessages dec { (ensureDHState st f).1 with sharedKeys := mapSet (ensureDHState st f).1.sharedKeys f (some { (ensureDHState st f).2 with sharedKey := some key }), status := "Secure channel established with " ++ getFriendName (ensureDHState st f).1 f } f) f)) := by
  simp only [deriveSharedSecret, himp, hkp, hder]

/-- Claim C6 amended.  When no shared key exists for `targetId`,
`handleSendMessage` returns the waiting status and only re-announces the
local public key: the plaintext is NOT held in the pending buffer (the
buffer map is unchanged).  The pending buffer instead holds inbound
payloads, and on receiving the peer's `PublicKeyAnnounce` (the successful
`deriveSharedSecret`), every held payload is replayed through the receive
path `decryptIncoming` in order: the bucket is cleared and the thread
gains exactly the successfully decoded messages. -/
theorem send_waiting_and_replay :
    (∀ (enc : Nat → List Nat → List Nat × List Nat) (st : ClientState)
        (t : String) (txt : List Nat),
      (st.sharedKeys t).bind DHState.sharedKey = none →
        handleSendMessage enc st t txt =
          { emitPublicKey st t with status := "Waiting for shared key exchange" } ∧
        (handleSendMessage enc st t txt).pendingMessages = st.pendingMessages) ∧
    (∀ (imp : Nat → Option Nat) (der : Nat → Nat → Option Nat)
        (dec : Nat → List Nat → List Nat → Option (List Nat))
        (st : ClientState) (f : String) (pk imported kp key : Nat)
        (bucket : List Payload),
      imp pk = some imported →
      (ensureDHState st f).2.keyPair = some kp →
      der kp imported = some key →
      st.pendingMessages f = some bucket →
      bucket ≠ [] →
      (∀ p ∈ bucket, p.fromUser = f) →
      ∃ st2, deriveSharedSecret imp der dec st f pk = .ok st2 ∧
        st2.pendingMessages f = none ∧
        st2.threads f = st.threads f ++ bucket.filterMap (decodedMessageWith dec key)) := by
  constructor
  · intro enc st t txt h
    have heq : ensureSharedKey st t = (emitPublicKey st t, none) := by
      cases hs : st.sharedKeys t with
      | none => simp only [ensureSharedKey, hs]
      | some state =>
        have hsk : state.sharedKey = none := by
          rw [hs] at h
          exact h
        simp only [ensureSharedKey, hs, hsk]
    constructor
    · simp only [handleSendMessage, heq]
    · simp only [handleSendMessage, heq]
      exact (emitPublicKey_frame st t).1
  · intro imp der dec st f pk imported kp key bucket himp hkp hder hpend hne hmem
    obtain ⟨hp, ht, _, _, _⟩ := ensureDHState_frame st f
    rw [deriveSharedSecret_ok_shape imp der dec st f pk imported kp key himp hkp hder]
    set stTwo : ClientState := { (ensureDHState st f).1 with sharedKeys := mapSet (ensureDHState st f).1.sharedKeys f (some { (ensureDHState st f).2 with sharedKey := some key }), status := "Secure channel established with " ++ getFriendName (ensureDHState st f).1 f } with hstTwo
    have hTwoPend : stTwo.pendingMessages f = some bucket := by
      show (ensureDHState st f).1.pendingMessages f = some bucket
      rw [hp]
      exact hpend
    have hrun := runPendingMessages_eq_fold dec stTwo f bucket hTwoPend hne
    have hDelKey : (({ stTwo with pendingMessages := mapSet stTwo.pendingMessages f none } : ClientState).sharedKeys f).bind DHState.sharedKey = some key := by
      show ((mapSet (ensureDHState st f).1.sharedKeys f (some { (ensureDHState st f).2 with sharedKey := some key })) f).bind DHState.sharedKey = some key
      rw [mapSet_same]
      rfl
    obtain ⟨hf1, hf2, hf3⟩ :=
      foldl_decryptIncoming dec key f bucket
        { stTwo with pendingMessages := mapSet stTwo.pendingMessages f none }
        hDelKey hmem
    have hst3pend : (bucket.foldl (decryptIncoming dec)
        { stTwo with pendingMessages := mapSet stTwo.pendingMessages f none }).pendingMessages f = none := by
      rw [hf2]
      show mapSet stTwo.pendingMessages f none f = none
      exact mapSet_same _ _ _
    have hst3threads : (bucket.foldl (decryptIncoming dec)
        { stTwo with pendingMessages := mapSet stTwo.pendingMessages f none }).threads f =
        st.threads f ++ bucket.filterMap (decodedMessageWith dec key) := by
      rw [hf3]
      have hth : ({ stTwo with pendingMessages := mapSet stTwo.pendingMessages f none } : ClientState).threads f = st.threads f := by
        show (ensureDHState st f).1.threads f = st.threads f
        rw [ht]
      rw [hth]
    cases hsp : (ensureDHState st f).2.sentPublic with
    | true =>
      rw [if_pos rfl]
      refine ⟨_, rfl, ?_, ?_⟩
      · rw [hrun]
        exact hst3pend
      · rw [hrun]
        exact hst3threads
    | false =>
      rw [if_neg (by simp)]
      refine ⟨_, rfl, ?_, ?_⟩
      · rw [hrun, (emitPublicKey_frame _ f).1]
        exact hst3pend
      · rw [hrun, (emitPublicKey_frame _ f).2]
        exact hst3threads

/-- A total `importPublicKey` stand-in. -/
def impOk : Nat → Option Nat := fun j => some j

/-- An `encryptWithKey` stand-in: identity ciphertext, empty iv. -/
def encEcho : Nat → List Nat → List Nat × List Nat := fun _ t => (t, [])

/-- A concrete inbound payload from `bob`. -/
def pBob : Payload := ⟨"bob", [], []⟩

/-- A client that already announced to `bob` (pair 0, no shared key yet is
not this one: here the key pair exists and `sentPublic` is set) and holds
one inbound payload from `bob` in the pending buffer. -/
def cliPending : ClientState :=
  ⟨fun _ => some ⟨some 0, none, true⟩, fun _ => some [pBob], fun _ => [], [],
    "Ready", [], "alice", 1⟩

/-- Counterexample to claim C6: with no shared key for `bob`, sending does
NOT hold the plaintext in the pending buffer keyed by the target (the
buffer stays empty); only a waiting status is reported. -/
theorem send_no_buffering_counterexample :
    (cliEmpty.sharedKeys "bob").bind DHState.sharedKey = none ∧
      (handleSendMessage encEcho cliEmpty "bob" [104, 105]).pendingMessages "bob" =
        none ∧
      (handleSendMessage encEcho cliEmpty "bob" [104, 105]).status =
        "Waiting for shared key exchange" :=
  ⟨rfl, rfl, rfl⟩

/-- Witness for the amended C6: the no-key send path at a fresh client,
and the replay path at a client holding one pending inbound payload. -/
theorem send_waiting_and_replay_witness :
    (handleSendMessage encEcho cliEmpty "bob" [104, 105] =
        { emitPublicKey cliEmpty "bob" with status := "Waiting for shared key exchange" } ∧
      (handleSendMessage encEcho cliEmpty "bob" [104, 105]).pendingMessages =
        cliEmpty.pendingMessages) ∧
    (∃ st2, deriveSharedSecret impOk derOk decNone cliPending "bob" 5 = .ok st2 ∧
      st2.pendingMessages "bob" = none ∧
      st2.threads "bob" =
        cliPending.threads "bob" ++ [pBob].filterMap (decodedMessageWith decNone 7)) :=
  ⟨send_waiting_and_replay.1 encEcho cliEmpty "bob" [104, 105] rfl,
    send_waiting_and_replay.2 impOk derOk decNone cliPending "bob" 5 5 0 7 [pBob]
      rfl rfl rfl rfl (by simp)
      (by
        intro q hq
        rw [List.mem_singleton] at hq
        subst hq
        rfl)⟩
